import Mathlib

/-!
Shallow embedding of the application-level hybrid-search fusion algorithm
`fuse_search_results` from `test_working_hybrid_search.py`.

Input documents are modelled by `SearchResult` (a Python dict with `_id`,
`title`, `content`, `category` always present and `vector_score` /
`text_score` possibly absent, read with `.get(key, 0)`).  The combined
Python dict (insertion-ordered, keyed by `_id`) is modelled by a list of
`FusedDoc` records with unique `_id` keys, where assignment to an existing
key replaces the record in place (`upsert`) and assignment to a fresh key
appends.  Python's `sorted(..., key=hybrid_score, reverse=True)` is a
stable descending sort, modelled by `sortDesc` (stable insertion sort).
Numeric scores are modelled by `ℚ`.
-/

namespace HybridSearch

open List

structure SearchResult where
  _id : String
  title : String
  content : String
  category : String
  vector_score : Option ℚ
  text_score : Option ℚ
deriving DecidableEq, Repr

structure FusedDoc where
  _id : String
  title : String
  content : String
  category : String
  vector_score : ℚ
  text_score : ℚ
  vector_rank : Option ℕ
  text_rank : Option ℕ
  hybrid_score : ℚ
deriving DecidableEq, Repr

/-- The reciprocal-rank-fusion kernel for a 0-based `rank`:
`1.0 / (rank + 1 + 60)` in the source. -/
def rrf (rank : ℕ) : ℚ := 1 / ((rank : ℚ) + 1 + 60)

/-- Python dict assignment `combined_results[doc_id] = d`: replaces the
record with key `d._id` in place, else appends at the end. -/
def upsert (m : List FusedDoc) (d : FusedDoc) : List FusedDoc :=
  match m with
  | [] => [d]
  | x :: xs => if x._id = d._id then d :: xs else x :: upsert xs d

/-- Python `doc_id in combined_results`. -/
def containsKey (m : List FusedDoc) (key : String) : Bool :=
  m.any (fun x => x._id = key)

/-- In-place mutation of the record with the given key. -/
def updateKey (m : List FusedDoc) (key : String) (f : FusedDoc → FusedDoc) :
    List FusedDoc :=
  m.map (fun x => if x._id = key then f x else x)

/-- Python `m.find` of the record with the given key. -/
def lookupKey (m : List FusedDoc) (key : String) : Option FusedDoc :=
  m.find? (fun x => x._id = key)

/-- The record built in the vector loop (`rank` is the 0-based enumerate
index). -/
def mkVectorEntry (vector_weight : ℚ) (rank : ℕ) (result : SearchResult) :
    FusedDoc :=
  { _id := result._id
    title := result.title
    content := result.content
    category := result.category
    vector_score := result.vector_score.getD 0
    text_score := 0
    vector_rank := some (rank + 1)
    text_rank := none
    hybrid_score := vector_weight * rrf rank }

/-- The in-place update performed by the text loop when the document was
already found by the vector search. -/
def applyText (text_weight : ℚ) (rank : ℕ) (result : SearchResult)
    (d : FusedDoc) : FusedDoc :=
  { d with
    text_score := result.text_score.getD 0
    text_rank := some (rank + 1)
    hybrid_score := d.hybrid_score + text_weight * rrf rank }

/-- The record built in the text loop for a document only found by the
text search. -/
def mkTextEntry (text_weight : ℚ) (rank : ℕ) (result : SearchResult) :
    FusedDoc :=
  { _id := result._id
    title := result.title
    content := result.content
    category := result.category
    vector_score := 0
    text_score := result.text_score.getD 0
    vector_rank := none
    text_rank := some (rank + 1)
    hybrid_score := text_weight * rrf rank }

/-- `for rank, result in enumerate(vector_results)` starting at index `k`. -/
def processVector (vector_weight : ℚ) :
    ℕ → List SearchResult → List FusedDoc → List FusedDoc
  | _, [], m => m
  | rank, r :: rs, m =>
      processVector vector_weight (rank + 1) rs
        (upsert m (mkVectorEntry vector_weight rank r))

/-- `for rank, result in enumerate(text_results)` starting at index `k`. -/
def processText (text_weight : ℚ) :
    ℕ → List SearchResult → List FusedDoc → List FusedDoc
  | _, [], m => m
  | rank, r :: rs, m =>
      processText text_weight (rank + 1) rs
        (if containsKey m r._id then
          updateKey m r._id (applyText text_weight rank r)
        else
          m ++ [mkTextEntry text_weight rank r])

/-- Stable insertion (descending by `hybrid_score`): the inserted element
goes in front of the first element whose score is `≤` its own.  Elements
already in the list that tie with `d` keep their position in front of `d`
only if they come before the insertion point, which never happens: `d` is
placed before every tied element, matching a stable sort where `d`
originates earlier in the input than everything currently in the list. -/
def insertDesc (d : FusedDoc) : List FusedDoc → List FusedDoc
  | [] => [d]
  | x :: xs =>
      if x.hybrid_score ≤ d.hybrid_score then d :: x :: xs
      else x :: insertDesc d xs

/-- Python `sorted(combined_results.values(), key=hybrid_score,
reverse=True)`: the unique stable descending sort. -/
def sortDesc : List FusedDoc → List FusedDoc
  | [] => []
  | x :: xs => insertDesc x (sortDesc xs)

/-- The dict-building phase of `fuse_search_results` (both loops, before
sorting). -/
def combineResults (vector_results text_results : List SearchResult)
    (vector_weight text_weight : ℚ) : List FusedDoc :=
  processText text_weight 0 text_results
    (processVector vector_weight 0 vector_results [])

/-- `fuse_search_results(vector_results, text_results, vector_weight,
text_weight)` with explicit weights. -/
def fuse_search_results (vector_results text_results : List SearchResult)
    (vector_weight text_weight : ℚ) : List FusedDoc :=
  sortDesc (combineResults vector_results text_results vector_weight text_weight)

/-- Default value of the `vector_weight` parameter in the source. -/
def DEFAULT_VECTOR_WEIGHT : ℚ := 7/10

/-- Default value of the `text_weight` parameter in the source. -/
def DEFAULT_TEXT_WEIGHT : ℚ := 3/10

/-- `fuse_search_results(vector_results, text_results)` with the weight
parameters left at their defaults. -/
def fuse_search_results_default (vector_results text_results : List SearchResult) :
    List FusedDoc :=
  fuse_search_results vector_results text_results
    DEFAULT_VECTOR_WEIGHT DEFAULT_TEXT_WEIGHT

/-! ### Keys of the combined dict -/

/-- The key sequence of the modelled dict (Python dict preserves insertion
order, so this list is meaningful). -/
def keys (m : List FusedDoc) : List String := m.map FusedDoc._id

/-- The entries created by the vector loop, in order, starting from
0-based rank `k`. -/
def vecEntries (vector_weight : ℚ) : ℕ → List SearchResult → List FusedDoc
  | _, [] => []
  | k, r :: rs => mkVectorEntry vector_weight k r :: vecEntries vector_weight (k + 1) rs

/-- The keys appended by the text loop: text ids not already present
(`ks` accumulates ids seen so far). -/
def newTextKeys (ks : List String) : List String → List String
  | [] => []
  | x :: xs => if x ∈ ks then newTextKeys ks xs else x :: newTextKeys (ks ++ [x]) xs

/-- The key order of the fused output before sorting: vector ids in vector
order, then text-only ids in text order. -/
def fusionKeys (v t : List SearchResult) : List String :=
  v.map SearchResult._id ++
    (t.map SearchResult._id).filter (fun id => decide (id ∉ v.map SearchResult._id))

/-- Position of the first occurrence of `x` (length of the list if absent). -/
def posOf : List String → String → ℕ
  | [], _ => 0
  | k :: ks, x => if k = x then 0 else posOf ks x + 1

/-! ### Concrete documents used by witnesses and counterexamples -/

def docA : SearchResult :=
  ⟨"A", "titleA", "contentA", "catA", some (9/10), none⟩

def docB : SearchResult :=
  ⟨"B", "titleB", "contentB", "catB", some (8/10), none⟩

def docBt : SearchResult :=
  ⟨"B", "titleBtext", "contentBtext", "catBtext", none, some (1/2)⟩

def docC : SearchResult :=
  ⟨"C", "titleC", "contentC", "catC", none, some (2/5)⟩

def docA2 : SearchResult :=
  ⟨"A", "titleA2", "contentA2", "catA2", some (1/2), none⟩

def docAt : SearchResult :=
  ⟨"A", "titleAtext", "contentAtext", "catAtext", none, some 1⟩

def docAzero : SearchResult :=
  ⟨"A", "titleA", "contentA", "catA", none, some 0⟩

def docV1 : SearchResult :=
  ⟨"c1", "titleC1", "contentC1", "catC1", none, none⟩

def docV2 : SearchResult :=
  ⟨"c2", "titleC2", "contentC2", "catC2", none, none⟩

def docV2t : SearchResult :=
  ⟨"c2", "titleC2t", "contentC2t", "catC2t", none, some (3/5)⟩

@[simp] theorem keys_nil : keys [] = [] := rfl

@[simp] theorem keys_cons (x : FusedDoc) (m : List FusedDoc) :
    keys (x :: m) = x._id :: keys m := rfl

@[simp] theorem keys_append (m m' : List FusedDoc) :
    keys (m ++ m') = keys m ++ keys m' := List.map_append _ _ _

theorem containsKey_iff (m : List FusedDoc) (key : String) :
    containsKey m key = true ↔ key ∈ keys m := by
  simp [containsKey, keys, List.any_eq_true, List.mem_map]

theorem upsert_of_not_mem {m : List FusedDoc} {d : FusedDoc}
    (h : d._id ∉ keys m) : upsert m d = m ++ [d] := by
  induction m with
  | nil => rfl
  | cons x xs ih =>
      simp only [keys_cons, List.mem_cons] at h
      push_neg at h
      simp only [upsert, if_neg (Ne.symm h.1), List.cons_append, ih h.2]

theorem mem_upsert {m : List FusedDoc} {d e : FusedDoc}
    (h : e ∈ upsert m d) : e ∈ m ∨ e = d := by
  induction m with
  | nil => simp only [upsert, List.mem_singleton] at h; exact Or.inr h
  | cons x xs ih =>
      simp only [upsert] at h
      by_cases hx : x._id = d._id
      · rw [if_pos hx] at h
        rcases List.mem_cons.mp h with h | h
        · exact Or.inr h
        · exact Or.inl (List.mem_cons_of_mem _ h)
      · rw [if_neg hx] at h
        rcases List.mem_cons.mp h with h | h
        · exact Or.inl (h ▸ List.mem_cons_self _ _)
        · rcases ih h with h | h
          · exact Or.inl (List.mem_cons_of_mem _ h)
          · exact Or.inr h

/-! ### Lookup lemmas -/

theorem lookupKey_cons (x : FusedDoc) (m : List FusedDoc) (key : String) :
    lookupKey (x :: m) key = if x._id = key then some x else lookupKey m key := by
  by_cases h : x._id = key
  · simp [lookupKey, List.find?_cons_of_pos, h]
  · simp [lookupKey, List.find?_cons_of_neg, h]

theorem lookupKey_append (m m' : List FusedDoc) (key : String) :
    lookupKey (m ++ m') key =
      (lookupKey m key).orElse (fun _ => lookupKey m' key) := by
  induction m with
  | nil => simp [lookupKey]
  | cons x xs ih =>
      rw [List.cons_append, lookupKey_cons, lookupKey_cons]
      by_cases h : x._id = key
      · simp [h]
      · simp [h, ih]

theorem lookupKey_append_left {m : List FusedDoc} {key : String} {e : FusedDoc}
    (h : lookupKey m key = some e) (m' : List FusedDoc) :
    lookupKey (m ++ m') key = some e := by
  rw [lookupKey_append, h]; rfl

theorem lookupKey_eq_none_of_not_mem {m : List FusedDoc} {key : String}
    (h : key ∉ keys m) : lookupKey m key = none := by
  induction m with
  | nil => rfl
  | cons x xs ih =>
      simp only [keys_cons, List.mem_cons] at h
      push_neg at h
      rw [lookupKey_cons, if_neg (Ne.symm h.1)]
      exact ih h.2

theorem lookupKey_append_right {m : List FusedDoc} {key : String}
    (h : key ∉ keys m) (m' : List FusedDoc) :
    lookupKey (m ++ m') key = lookupKey m' key := by
  rw [lookupKey_append, lookupKey_eq_none_of_not_mem h]; rfl

theorem lookupKey_mem {m : List FusedDoc} {key : String} {e : FusedDoc}
    (h : lookupKey m key = some e) : e ∈ m ∧ e._id = key := by
  refine ⟨List.mem_of_find?_eq_some h, ?_⟩
  have := List.find?_some h
  simpa using this

theorem mem_keys_of_lookupKey {m : List FusedDoc} {key : String} {e : FusedDoc}
    (h : lookupKey m key = some e) : key ∈ keys m := by
  obtain ⟨hm, hid⟩ := lookupKey_mem h
  exact hid ▸ List.mem_map_of_mem _ hm

/-! ### updateKey lemmas -/

theorem keys_updateKey (m : List FusedDoc) (key : String) (f : FusedDoc → FusedDoc)
    (hf : ∀ d, (f d)._id = d._id) : keys (updateKey m key f) = keys m := by
  induction m with
  | nil => rfl
  | cons x xs ih =>
      simp only [updateKey, List.map_cons] at *
      by_cases h : x._id = key
      · simp only [keys_cons, if_pos h, hf, ih]
      · simp only [keys_cons, if_neg h, ih]

theorem lookupKey_updateKey_self (m : List FusedDoc) (key : String)
    (f : FusedDoc → FusedDoc) (hf : ∀ d, (f d)._id = d._id) :
    lookupKey (updateKey m key f) key = (lookupKey m key).map f := by
  induction m with
  | nil => rfl
  | cons x xs ih =>
      simp only [updateKey, List.map_cons]
      by_cases h : x._id = key
      · rw [if_pos h, lookupKey_cons, if_pos (by rw [hf, h]), lookupKey_cons,
          if_pos h, Option.map_some']
      · rw [if_neg h, lookupKey_cons, if_neg h, lookupKey_cons, if_neg h]
        exact ih

theorem lookupKey_updateKey_other (m : List FusedDoc) {key key' : String}
    (f : FusedDoc → FusedDoc) (hf : ∀ d, (f d)._id = d._id)
    (h : key' ≠ key) :
    lookupKey (updateKey m key f) key' = lookupKey m key' := by
  induction m with
  | nil => rfl
  | cons x xs ih =>
      simp only [updateKey, List.map_cons]
      by_cases hx : x._id = key
      · rw [if_pos hx, lookupKey_cons, if_neg (by rw [hf, hx]; exact fun hh => h hh.symm),
          lookupKey_cons, if_neg (by rw [hx]; exact fun hh => h hh.symm)]
        exact ih
      · rw [if_neg hx, lookupKey_cons, lookupKey_cons]
        by_cases hx' : x._id = key'
        · rw [if_pos hx', if_pos hx']
        · rw [if_neg hx', if_neg hx']
          exact ih

/-! ### The vector loop: closed form under distinct ids -/

@[simp] theorem mkVectorEntry_id (vw : ℚ) (k : ℕ) (r : SearchResult) :
    (mkVectorEntry vw k r)._id = r._id := rfl

@[simp] theorem mkTextEntry_id (tw : ℚ) (k : ℕ) (r : SearchResult) :
    (mkTextEntry tw k r)._id = r._id := rfl

@[simp] theorem applyText_id (tw : ℚ) (k : ℕ) (r : SearchResult) (d : FusedDoc) :
    (applyText tw k r d)._id = d._id := rfl

theorem keys_vecEntries (vw : ℚ) (k : ℕ) (v : List SearchResult) :
    keys (vecEntries vw k v) = v.map SearchResult._id := by
  induction v generalizing k with
  | nil => rfl
  | cons r rs ih => rw [vecEntries, keys_cons, mkVectorEntry_id, ih, List.map_cons]

theorem processVector_eq {v : List SearchResult} {m : List FusedDoc}
    (vw : ℚ) (k : ℕ)
    (hd : ∀ r ∈ v, r._id ∉ keys m)
    (hv : (v.map SearchResult._id).Nodup) :
    processVector vw k v m = m ++ vecEntries vw k v := by
  induction v generalizing k m with
  | nil => simp [processVector, vecEntries]
  | cons r rs ih =>
      simp only [processVector, vecEntries]
      rw [upsert_of_not_mem (hd r (List.mem_cons_self _ _))]
      rw [ih]
      · simp
      · intro r' hr'
        simp only [keys_append, keys_cons, keys_nil, List.mem_append,
          List.mem_singleton, mkVectorEntry_id]
        push_neg
        refine ⟨hd r' (List.mem_cons_of_mem _ hr'), ?_⟩
        simp only [List.map_cons, List.nodup_cons] at hv
        exact fun hc => hv.1 (hc ▸ List.mem_map_of_mem _ hr')
      · simp only [List.map_cons, List.nodup_cons] at hv
        exact hv.2

theorem lookupKey_vecEntries {v : List SearchResult} {i : ℕ} {r : SearchResult}
    (vw : ℚ) (k : ℕ)
    (hv : (v.map SearchResult._id).Nodup)
    (hi : v[i]? = some r) :
    lookupKey (vecEntries vw k v) r._id = some (mkVectorEntry vw (k + i) r) := by
  induction v generalizing k i with
  | nil => simp at hi
  | cons x xs ih =>
      simp only [List.map_cons, List.nodup_cons] at hv
      cases i with
      | zero =>
          simp only [List.getElem?_cons_zero, Option.some.injEq] at hi
          subst hi
          simp [vecEntries, lookupKey_cons]
      | succ i =>
          simp only [List.getElem?_cons_succ] at hi
          have hmem : r ∈ xs := by
            have := List.getElem?_eq_some_iff.mp hi
            obtain ⟨h, rfl⟩ := this
            exact List.getElem_mem _
          have hne : x._id ≠ r._id :=
            fun hc => hv.1 (hc ▸ List.mem_map_of_mem _ hmem)
          rw [vecEntries, lookupKey_cons, mkVectorEntry_id, if_neg hne]
          rw [ih (k + 1) hv.2 hi]
          congr 2
          omega

/-! ### The text loop -/

theorem keys_processText (tw : ℚ) (k : ℕ) (t : List SearchResult)
    (m : List FusedDoc) :
    keys (processText tw k t m) = keys m ++ newTextKeys (keys m) (t.map SearchResult._id) := by
  induction t generalizing k m with
  | nil => simp [processText, newTextKeys]
  | cons r rs ih =>
      rw [processText, List.map_cons, newTextKeys]
      by_cases h : r._id ∈ keys m
      · rw [if_pos ((containsKey_iff m r._id).mpr h), if_pos h, ih,
          keys_updateKey m r._id (applyText tw k r) (fun d => applyText_id tw k r d)]
      · rw [if_neg (by rw [containsKey_iff]; exact h), if_neg h, ih]
        simp

theorem newTextKeys_eq_filter {xs : List String} (ks : List String)
    (h : xs.Nodup) :
    newTextKeys ks xs = xs.filter (fun x => decide (x ∉ ks)) := by
  induction xs generalizing ks with
  | nil => rfl
  | cons x xs ih =>
      simp only [List.nodup_cons] at h
      rw [newTextKeys]
      by_cases hx : x ∈ ks
      · rw [if_pos hx, List.filter_cons_of_neg (by simpa using hx), ih ks h.2]
      · rw [if_neg hx, List.filter_cons_of_pos (by simpa using hx), ih _ h.2]
        congr 1
        apply List.filter_congr
        intro y hy
        have hne : y ≠ x := fun hc => h.1 (hc ▸ hy)
        simp [hne, hx]

theorem lookupKey_append_singleton {x : FusedDoc} {id : String}
    (h : x._id ≠ id) (m : List FusedDoc) :
    lookupKey (m ++ [x]) id = lookupKey m id := by
  rw [lookupKey_append]
  cases hm : lookupKey m id <;>
    simp [Option.orElse, lookupKey_cons, if_neg h, lookupKey]

theorem lookupKey_processText_of_not_mem {t : List SearchResult} {id : String}
    (tw : ℚ) (k : ℕ) (m : List FusedDoc)
    (h : id ∉ t.map SearchResult._id) :
    lookupKey (processText tw k t m) id = lookupKey m id := by
  induction t generalizing k m with
  | nil => rfl
  | cons r rs ih =>
      simp only [List.map_cons, List.mem_cons] at h
      push_neg at h
      rw [processText]
      by_cases hc : containsKey m r._id = true
      · rw [if_pos hc, ih _ _ h.2,
          lookupKey_updateKey_other m (applyText tw k r)
            (fun d => applyText_id tw k r d) h.1]
      · rw [if_neg hc, ih _ _ h.2,
          lookupKey_append_singleton (Ne.symm h.1)]

theorem lookupKey_processText_update {t : List SearchResult} {j : ℕ}
    {r : SearchResult} {id : String} {e : FusedDoc}
    (tw : ℚ) (k : ℕ) (m : List FusedDoc)
    (ht : (t.map SearchResult._id).Nodup)
    (hj : t[j]? = some r) (hid : r._id = id)
    (he : lookupKey m id = some e) :
    lookupKey (processText tw k t m) id = some (applyText tw (k + j) r e) := by
  induction t generalizing k m j with
  | nil => simp at hj
  | cons x xs ih =>
      simp only [List.map_cons, List.nodup_cons] at ht
      cases j with
      | zero =>
          simp only [List.getElem?_cons_zero, Option.some.injEq] at hj
          subst hj
          subst hid
          rw [processText,
            if_pos ((containsKey_iff m x._id).mpr (mem_keys_of_lookupKey he)),
            lookupKey_processText_of_not_mem _ _ _ ht.1,
            lookupKey_updateKey_self m x._id (applyText tw k x)
              (fun d => applyText_id tw k x d),
            he, Option.map_some', Nat.add_zero]
      | succ j =>
          simp only [List.getElem?_cons_succ] at hj
          have hmem : r ∈ xs := by
            obtain ⟨h, rfl⟩ := List.getElem?_eq_some_iff.mp hj
            exact List.getElem_mem _
          have hne : id ≠ x._id :=
            fun hc => ht.1 (hc ▸ hid ▸ List.mem_map_of_mem _ hmem)
          rw [processText]
          have hrec : k + (j + 1) = (k + 1) + j := by omega
          by_cases hc : containsKey m x._id = true
          · rw [if_pos hc, hrec]
            refine ih _ _ ht.2 hj ?_
            rw [lookupKey_updateKey_other m (applyText tw k x)
              (fun d => applyText_id tw k x d) hne]
            exact he
          · rw [if_neg hc, hrec]
            exact ih _ _ ht.2 hj (lookupKey_append_left he _)

theorem lookupKey_processText_new {t : List SearchResult} {j : ℕ}
    {r : SearchResult} {id : String}
    (tw : ℚ) (k : ℕ) (m : List FusedDoc)
    (ht : (t.map SearchResult._id).Nodup)
    (hm : id ∉ keys m)
    (hj : t[j]? = some r) (hid : r._id = id) :
    lookupKey (processText tw k t m) id = some (mkTextEntry tw (k + j) r) := by
  induction t generalizing k m j with
  | nil => simp at hj
  | cons x xs ih =>
      simp only [List.map_cons, List.nodup_cons] at ht
      cases j with
      | zero =>
          simp only [List.getElem?_cons_zero, Option.some.injEq] at hj
          subst hj
          subst hid
          rw [processText, if_neg (by rw [containsKey_iff]; exact hm),
            lookupKey_processText_of_not_mem _ _ _ ht.1,
            lookupKey_append_right hm, lookupKey_cons, mkTextEntry_id,
            if_pos rfl, Nat.add_zero]
      | succ j =>
          simp only [List.getElem?_cons_succ] at hj
          have hmem : r ∈ xs := by
            obtain ⟨h, rfl⟩ := List.getElem?_eq_some_iff.mp hj
            exact List.getElem_mem _
          have hne : id ≠ x._id :=
            fun hc => ht.1 (hc ▸ hid ▸ List.mem_map_of_mem _ hmem)
          rw [processText]
          have hrec : k + (j + 1) = (k + 1) + j := by omega
          by_cases hc : containsKey m x._id = true
          · rw [if_pos hc, hrec]
            refine ih _ _ ht.2 ?_ hj
            rw [keys_updateKey m x._id (applyText tw k x)
              (fun d => applyText_id tw k x d)]
            exact hm
          · rw [if_neg hc, hrec]
            refine ih _ _ ht.2 ?_ hj
            simp only [keys_append, keys_cons, keys_nil, List.mem_append,
              List.mem_singleton, mkTextEntry_id]
            push_neg
            exact ⟨hm, hne⟩

/-! ### The combined dict -/

theorem combineResults_eq (v t : List SearchResult) (vw tw : ℚ)
    (hv : (v.map SearchResult._id).Nodup) :
    combineResults v t vw tw = processText tw 0 t (vecEntries vw 0 v) := by
  rw [combineResults, processVector_eq vw 0 (by simp) hv, List.nil_append]

theorem keys_combineResults (v t : List SearchResult) (vw tw : ℚ)
    (hv : (v.map SearchResult._id).Nodup)
    (ht : (t.map SearchResult._id).Nodup) :
    keys (combineResults v t vw tw) = fusionKeys v t := by
  rw [combineResults_eq v t vw tw hv, keys_processText, keys_vecEntries,
    newTextKeys_eq_filter _ ht, fusionKeys]

theorem fusionKeys_nodup {v t : List SearchResult}
    (hv : (v.map SearchResult._id).Nodup)
    (ht : (t.map SearchResult._id).Nodup) :
    (fusionKeys v t).Nodup := by
  rw [fusionKeys]
  refine List.Nodup.append hv (ht.filter _) ?_
  intro x hx hx'
  rw [List.mem_filter, decide_eq_true_eq] at hx'
  exact hx'.2 hx

theorem mem_fusionKeys {v t : List SearchResult} {id : String} :
    id ∈ fusionKeys v t ↔
      id ∈ v.map SearchResult._id ∨ id ∈ t.map SearchResult._id := by
  simp only [fusionKeys, List.mem_append, List.mem_filter, decide_eq_true_eq]
  by_cases h : id ∈ v.map SearchResult._id <;> simp [h]

theorem lookupKey_combine_both {v t : List SearchResult} {i j : ℕ}
    {rv rt : SearchResult} (vw tw : ℚ)
    (hv : (v.map SearchResult._id).Nodup)
    (ht : (t.map SearchResult._id).Nodup)
    (hiv : v[i]? = some rv) (hjt : t[j]? = some rt)
    (hid : rt._id = rv._id) :
    lookupKey (combineResults v t vw tw) rv._id =
      some (applyText tw j rt (mkVectorEntry vw i rv)) := by
  rw [combineResults_eq v t vw tw hv]
  have h1 := lookupKey_vecEntries vw 0 hv hiv
  rw [Nat.zero_add] at h1
  have h2 := lookupKey_processText_update tw 0 (vecEntries vw 0 v) ht hjt hid h1
  rwa [Nat.zero_add] at h2

theorem lookupKey_combine_vec {v t : List SearchResult} {i : ℕ}
    {rv : SearchResult} (vw tw : ℚ)
    (hv : (v.map SearchResult._id).Nodup)
    (hiv : v[i]? = some rv)
    (hnt : rv._id ∉ t.map SearchResult._id) :
    lookupKey (combineResults v t vw tw) rv._id = some (mkVectorEntry vw i rv) := by
  rw [combineResults_eq v t vw tw hv,
    lookupKey_processText_of_not_mem _ _ _ hnt]
  have h1 := lookupKey_vecEntries vw 0 hv hiv
  rwa [Nat.zero_add] at h1

theorem lookupKey_combine_text {v t : List SearchResult} {j : ℕ}
    {rt : SearchResult} (vw tw : ℚ)
    (hv : (v.map SearchResult._id).Nodup)
    (ht : (t.map SearchResult._id).Nodup)
    (hjt : t[j]? = some rt)
    (hnv : rt._id ∉ v.map SearchResult._id) :
    lookupKey (combineResults v t vw tw) rt._id = some (mkTextEntry tw j rt) := by
  rw [combineResults_eq v t vw tw hv]
  have h1 := lookupKey_processText_new tw 0 (vecEntries vw 0 v) ht
    (by rw [keys_vecEntries]; exact hnv) hjt rfl
  rwa [Nat.zero_add] at h1

/-! ### The stable descending sort -/

theorem insertDesc_split (d : FusedDoc) (s : List FusedDoc) :
    ∃ s1 s2, s = s1 ++ s2 ∧ insertDesc d s = s1 ++ d :: s2 ∧
      ∀ y ∈ s1, d.hybrid_score < y.hybrid_score := by
  induction s with
  | nil =>
      refine ⟨[], [], rfl, rfl, ?_⟩
      simp
  | cons x xs ih =>
      by_cases h : x.hybrid_score ≤ d.hybrid_score
      · refine ⟨[], x :: xs, rfl, ?_, ?_⟩
        · rw [insertDesc, if_pos h]
          rfl
        · simp
      · obtain ⟨s1, s2, h1, h2, h3⟩ := ih
        refine ⟨x :: s1, s2, by rw [h1, List.cons_append], ?_, ?_⟩
        · rw [insertDesc, if_neg h, h2, List.cons_append]
        · intro y hy
          rcases List.mem_cons.mp hy with rfl | hy
          · exact not_le.mp h
          · exact h3 y hy

theorem insertDesc_perm (d : FusedDoc) (s : List FusedDoc) :
    insertDesc d s ~ d :: s := by
  obtain ⟨s1, s2, h1, h2, _⟩ := insertDesc_split d s
  rw [h2, h1]
  exact List.perm_middle

theorem sortDesc_perm (l : List FusedDoc) : sortDesc l ~ l := by
  induction l with
  | nil => rfl
  | cons x xs ih => exact (insertDesc_perm x (sortDesc xs)).trans (ih.cons x)

theorem mem_sortDesc {l : List FusedDoc} {e : FusedDoc} :
    e ∈ sortDesc l ↔ e ∈ l :=
  (sortDesc_perm l).mem_iff

theorem insertDesc_pairwise {s : List FusedDoc} (d : FusedDoc)
    (h : s.Pairwise (fun a b => b.hybrid_score ≤ a.hybrid_score)) :
    (insertDesc d s).Pairwise (fun a b => b.hybrid_score ≤ a.hybrid_score) := by
  induction s with
  | nil => simp [insertDesc]
  | cons x xs ih =>
      rw [List.pairwise_cons] at h
      rw [insertDesc]
      by_cases hc : x.hybrid_score ≤ d.hybrid_score
      · rw [if_pos hc]
        refine List.Pairwise.cons ?_ (List.Pairwise.cons h.1 h.2)
        intro y hy
        rcases List.mem_cons.mp hy with rfl | hy
        · exact hc
        · exact le_trans (h.1 y hy) hc
      · rw [if_neg hc]
        refine List.Pairwise.cons ?_ (ih h.2)
        intro y hy
        rcases List.mem_cons.mp ((insertDesc_perm d xs).mem_iff.mp hy) with rfl | hy'
        · exact le_of_lt (not_le.mp hc)
        · exact h.1 y hy'

theorem sortDesc_pairwise (l : List FusedDoc) :
    (sortDesc l).Pairwise (fun a b => b.hybrid_score ≤ a.hybrid_score) := by
  induction l with
  | nil => exact List.Pairwise.nil
  | cons x xs ih => exact insertDesc_pairwise x ih

theorem sublist_insertDesc (d : FusedDoc) {s' s : List FusedDoc}
    (h : s' <+ s) : s' <+ insertDesc d s := by
  obtain ⟨s1, s2, h1, h2, _⟩ := insertDesc_split d s
  rw [h2]
  rw [h1] at h
  exact h.trans (List.Sublist.append_left (List.sublist_cons_self d s2) s1)

theorem sortDesc_stable {l : List FusedDoc} {a b : FusedDoc}
    (h : [a, b] <+ l) (hs : b.hybrid_score ≤ a.hybrid_score) :
    [a, b] <+ sortDesc l := by
  induction l with
  | nil => simp at h
  | cons x xs ih =>
      rw [sortDesc]
      cases h with
      | cons _ h' => exact sublist_insertDesc x (ih h')
      | cons₂ _ h' =>
          have hb : b ∈ sortDesc xs := mem_sortDesc.mpr (List.singleton_sublist.mp h')
          obtain ⟨s1, s2, h1, h2, h3⟩ := insertDesc_split a (sortDesc xs)
          rw [h2]
          have hb2 : b ∈ s2 := by
            rw [h1] at hb
            rcases List.mem_append.mp hb with hb | hb
            · exact absurd hs (not_le.mpr (h3 b hb))
            · exact hb
          exact ((List.singleton_sublist.mpr hb2).cons₂ a).trans
            (List.sublist_append_right s1 (a :: s2))

/-! ### Positions and pair sublists -/

theorem posOf_lt_of_pair_sublist {ks : List String} {x y : String}
    (h : [x, y] <+ ks) (hnd : ks.Nodup) : posOf ks x < posOf ks y := by
  induction ks with
  | nil => simp at h
  | cons k ks ih =>
      rw [List.nodup_cons] at hnd
      cases h with
      | cons _ h' =>
          have hx : x ∈ ks := h'.subset (List.mem_cons_self x [y])
          have hy : y ∈ ks :=
            h'.subset (List.mem_cons_of_mem x (List.mem_cons_self y []))
          have hkx : k ≠ x := fun hc => hnd.1 (hc ▸ hx)
          have hky : k ≠ y := fun hc => hnd.1 (hc ▸ hy)
          simp only [posOf, if_neg hkx, if_neg hky]
          exact Nat.succ_lt_succ (ih h' hnd.2)
      | cons₂ _ h' =>
          have hy : y ∈ ks := List.singleton_sublist.mp h'
          have hky : x ≠ y := fun hc => hnd.1 (hc ▸ hy)
          simp only [posOf, if_pos rfl, if_neg hky]
          exact Nat.succ_pos _

theorem pair_sublist_of_posOf_lt {ks : List String} {x y : String}
    (hx : x ∈ ks) (hy : y ∈ ks) (h : posOf ks x < posOf ks y) :
    [x, y] <+ ks := by
  induction ks with
  | nil => simp at hx
  | cons k ks ih =>
      by_cases hkx : k = x
      · subst hkx
        have hky : k ≠ y := by
          intro hc
          subst hc
          simp [posOf] at h
        have hy' : y ∈ ks := by
          rcases List.mem_cons.mp hy with rfl | hy'
          · exact absurd rfl hky
          · exact hy'
        exact (List.singleton_sublist.mpr hy').cons₂ k
      · have hky : k ≠ y := by
          intro hc
          subst hc
          simp [posOf, hkx] at h
        have hx' : x ∈ ks := by
          rcases List.mem_cons.mp hx with rfl | h'
          · exact absurd rfl hkx
          · exact h'
        have hy' : y ∈ ks := by
          rcases List.mem_cons.mp hy with rfl | h'
          · exact absurd rfl hky
          · exact h'
        refine (ih hx' hy' ?_).cons k
        simp only [posOf, if_neg hkx, if_neg hky] at h
        omega

theorem pair_sublist_entries {m : List FusedDoc} {x y : String}
    (h : [x, y] <+ keys m) :
    ∃ a b, [a, b] <+ m ∧ a._id = x ∧ b._id = y := by
  obtain ⟨l', hl', hmap⟩ := List.sublist_map_iff.mp h
  cases l' with
  | nil => simp at hmap
  | cons a l2 =>
      cases l2 with
      | nil => simp at hmap
      | cons b l3 =>
          cases l3 with
          | nil =>
              simp only [List.map_cons, List.map_nil, List.cons.injEq,
                and_true] at hmap
              exact ⟨a, b, hl', hmap.1.symm, hmap.2.symm⟩
          | cons c l4 => simp at hmap

theorem entry_eq_of_id_eq {m : List FusedDoc} {a b : FusedDoc}
    (hnd : (keys m).Nodup) (ha : a ∈ m) (hb : b ∈ m) (hid : a._id = b._id) :
    a = b :=
  List.inj_on_of_nodup_map hnd ha hb hid

theorem lookupKey_of_mem {m : List FusedDoc} {a : FusedDoc}
    (hnd : (keys m).Nodup) (ha : a ∈ m) : lookupKey m a._id = some a := by
  have h1 : (lookupKey m a._id).isSome := by
    rw [lookupKey, List.find?_isSome]
    exact ⟨a, ha, by simp⟩
  obtain ⟨e, he⟩ := Option.isSome_iff_exists.mp h1
  obtain ⟨hem, heid⟩ := lookupKey_mem he
  rw [he, entry_eq_of_id_eq hnd hem ha heid]

/-! ### Transport to the sorted output -/

theorem fuse_perm (v t : List SearchResult) (vw tw : ℚ) :
    fuse_search_results v t vw tw ~ combineResults v t vw tw :=
  sortDesc_perm _

theorem fuse_pairwise (v t : List SearchResult) (vw tw : ℚ) :
    (fuse_search_results v t vw tw).Pairwise
      (fun a b => b.hybrid_score ≤ a.hybrid_score) :=
  sortDesc_pairwise _

theorem keys_fuse_perm (v t : List SearchResult) (vw tw : ℚ)
    (hv : (v.map SearchResult._id).Nodup)
    (ht : (t.map SearchResult._id).Nodup) :
    keys (fuse_search_results v t vw tw) ~ fusionKeys v t := by
  have hp : keys (fuse_search_results v t vw tw) ~ keys (combineResults v t vw tw) :=
    (fuse_perm v t vw tw).map _
  rwa [keys_combineResults v t vw tw hv ht] at hp

theorem keys_fuse_nodup (v t : List SearchResult) (vw tw : ℚ)
    (hv : (v.map SearchResult._id).Nodup)
    (ht : (t.map SearchResult._id).Nodup) :
    (keys (fuse_search_results v t vw tw)).Nodup :=
  (keys_fuse_perm v t vw tw hv ht).symm.nodup (fusionKeys_nodup hv ht)

theorem mem_fuse_of_lookupKey {v t : List SearchResult} {vw tw : ℚ}
    {id : String} {e : FusedDoc}
    (h : lookupKey (combineResults v t vw tw) id = some e) :
    e ∈ fuse_search_results v t vw tw :=
  (fuse_perm v t vw tw).mem_iff.mpr (lookupKey_mem h).1

theorem lookupKey_fuse {v t : List SearchResult} {vw tw : ℚ}
    {id : String} {e : FusedDoc}
    (hv : (v.map SearchResult._id).Nodup)
    (ht : (t.map SearchResult._id).Nodup)
    (h : lookupKey (combineResults v t vw tw) id = some e) :
    lookupKey (fuse_search_results v t vw tw) id = some e := by
  have hm := mem_fuse_of_lookupKey h
  have hid := (lookupKey_mem h).2
  rw [← hid]
  exact lookupKey_of_mem (keys_fuse_nodup v t vw tw hv ht) hm

theorem pair_sublist_of_pos_lt_entries {m : List FusedDoc} {x y : String}
    {ex ey : FusedDoc}
    (hnd : (keys m).Nodup)
    (hex : lookupKey m x = some ex) (hey : lookupKey m y = some ey)
    (hpos : posOf (keys m) x < posOf (keys m) y) :
    [ex, ey] <+ m := by
  have hx : x ∈ keys m := mem_keys_of_lookupKey hex
  have hy : y ∈ keys m := mem_keys_of_lookupKey hey
  obtain ⟨a, b, hab, hax, hby⟩ :=
    pair_sublist_entries (pair_sublist_of_posOf_lt hx hy hpos)
  have ha : a ∈ m := hab.subset (List.mem_cons_self a [b])
  have hb : b ∈ m :=
    hab.subset (List.mem_cons_of_mem a (List.mem_cons_self b []))
  have h1 : a = ex := by
    have h2 := lookupKey_of_mem hnd ha
    rw [hax, hex] at h2
    exact (Option.some.injEq _ _).mp h2.symm
  have h3 : b = ey := by
    have h4 := lookupKey_of_mem hnd hb
    rw [hby, hey] at h4
    exact (Option.some.injEq _ _).mp h4.symm
  rw [← h1, ← h3]
  exact hab

theorem score_ge_of_pos_lt {v t : List SearchResult} {vw tw : ℚ}
    {x y : String} {ex ey : FusedDoc}
    (hv : (v.map SearchResult._id).Nodup)
    (ht : (t.map SearchResult._id).Nodup)
    (hex : lookupKey (combineResults v t vw tw) x = some ex)
    (hey : lookupKey (combineResults v t vw tw) y = some ey)
    (hpos : posOf (keys (fuse_search_results v t vw tw)) x <
            posOf (keys (fuse_search_results v t vw tw)) y) :
    ey.hybrid_score ≤ ex.hybrid_score := by
  have hfx := lookupKey_fuse hv ht hex
  have hfy := lookupKey_fuse hv ht hey
  have hsub : [ex, ey] <+ fuse_search_results v t vw tw :=
    pair_sublist_of_pos_lt_entries (keys_fuse_nodup v t vw tw hv ht) hfx hfy hpos
  have hp := (fuse_pairwise v t vw tw).sublist hsub
  exact (List.pairwise_cons.mp hp).1 ey (List.mem_cons_self ey [])

/-! ### Further sublist and algebra tools -/

theorem pair_sublist_keys {m : List FusedDoc} {a b : FusedDoc}
    (h : [a, b] <+ m) : [a._id, b._id] <+ keys m := by
  simpa using h.map FusedDoc._id

theorem pair_sublist_total {α : Type} {l : List α} {x y : α}
    (hx : x ∈ l) (hy : y ∈ l) (hne : x ≠ y) :
    [x, y] <+ l ∨ [y, x] <+ l := by
  induction l with
  | nil => simp at hx
  | cons k ks ih =>
      rcases List.mem_cons.mp hx with rfl | hx'
      · have hy' : y ∈ ks := by
          rcases List.mem_cons.mp hy with rfl | h'
          · exact absurd rfl hne
          · exact h'
        exact Or.inl ((List.singleton_sublist.mpr hy').cons₂ x)
      · rcases List.mem_cons.mp hy with rfl | hy'
        · exact Or.inr ((List.singleton_sublist.mpr hx').cons₂ y)
        · rcases ih hx' hy' with h' | h'
          · exact Or.inl (h'.cons k)
          · exact Or.inr (h'.cons k)

theorem pair_sublist_of_getElem? {α : Type} {l : List α} {i j : ℕ} {x y : α}
    (hij : i < j) (hx : l[i]? = some x) (hy : l[j]? = some y) :
    [x, y] <+ l := by
  induction l generalizing i j with
  | nil => simp at hx
  | cons k ks ih =>
      cases i with
      | zero =>
          simp only [List.getElem?_cons_zero, Option.some.injEq] at hx
          subst hx
          cases j with
          | zero => omega
          | succ j =>
              simp only [List.getElem?_cons_succ] at hy
              have hmem : y ∈ ks := by
                obtain ⟨h, rfl⟩ := List.getElem?_eq_some_iff.mp hy
                exact List.getElem_mem _
              exact (List.singleton_sublist.mpr hmem).cons₂ k
      | succ i =>
          cases j with
          | zero => omega
          | succ j =>
              simp only [List.getElem?_cons_succ] at hx hy
              exact (ih (by omega) hx hy).cons k

theorem rrf_le_rrf {i j : ℕ} (h : i ≤ j) : rrf j ≤ rrf i := by
  rw [rrf, rrf]
  have hcast : (i : ℚ) ≤ (j : ℚ) := Nat.cast_le.mpr h
  apply one_div_le_one_div_of_le
  · positivity
  · linarith

theorem mono_step {a b ta tb w1 w2 : ℚ} (hab : b ≤ a) (hw : w1 ≤ w2)
    (h1 : w1 * b + tb ≤ w1 * a + ta) : w2 * b + tb ≤ w2 * a + ta := by
  have key := mul_le_mul_of_nonneg_left hab (sub_nonneg.mpr hw)
  nlinarith [key]

/-- The fused score of the candidate at 0-based vector index `i` is
vector-weight-linear: `w * rrf i` plus a text contribution independent of
the vector weight. -/
theorem combine_score_shape {v t : List SearchResult} {i : ℕ}
    {rv : SearchResult} (tw : ℚ)
    (hv : (v.map SearchResult._id).Nodup)
    (ht : (t.map SearchResult._id).Nodup)
    (hiv : v[i]? = some rv) :
    ∃ c : ℚ, ∀ w : ℚ, ∃ e : FusedDoc,
      lookupKey (combineResults v t w tw) rv._id = some e ∧
      e.hybrid_score = w * rrf i + c := by
  by_cases hmem : rv._id ∈ t.map SearchResult._id
  · obtain ⟨rt, hrt, hrtid⟩ := List.mem_map.mp hmem
    obtain ⟨j, hj⟩ := List.mem_iff_getElem?.mp hrt
    refine ⟨tw * rrf j, fun w =>
      ⟨_, lookupKey_combine_both w tw hv ht hiv hj hrtid, ?_⟩⟩
    simp [applyText, mkVectorEntry]
  · refine ⟨0, fun w => ⟨_, lookupKey_combine_vec w tw hv hiv hmem, ?_⟩⟩
    simp [mkVectorEntry]

theorem rrf_lt_rrf {i j : ℕ} (h : i < j) : rrf j < rrf i := by
  rw [rrf, rrf]
  have hcast : (i : ℚ) < (j : ℚ) := Nat.cast_lt.mpr h
  apply one_div_lt_one_div_of_lt
  · positivity
  · linarith

theorem mono_step_strict {a b ta tb w1 w2 : ℚ} (hab : b < a) (hw : w1 < w2)
    (h1 : w1 * b + tb ≤ w1 * a + ta) : w2 * b + tb < w2 * a + ta := by
  have key := mul_lt_mul_of_pos_left hab (sub_pos.mpr hw)
  nlinarith [key]

/-- The fused score of the candidate at 0-based text index `i` is
text-weight-linear: `w * rrf i` plus a vector contribution independent of
the text weight. -/
theorem combine_score_shape_text {v t : List SearchResult} {i : ℕ}
    {rt : SearchResult} (vw : ℚ)
    (hv : (v.map SearchResult._id).Nodup)
    (ht : (t.map SearchResult._id).Nodup)
    (hit : t[i]? = some rt) :
    ∃ c : ℚ, ∀ w : ℚ, ∃ e : FusedDoc,
      lookupKey (combineResults v t vw w) rt._id = some e ∧
      e.hybrid_score = w * rrf i + c := by
  by_cases hmem : rt._id ∈ v.map SearchResult._id
  · obtain ⟨rv, hrv, hrvid⟩ := List.mem_map.mp hmem
    obtain ⟨iv, hiv⟩ := List.mem_iff_getElem?.mp hrv
    refine ⟨vw * rrf iv, fun w => ?_⟩
    have h := lookupKey_combine_both vw w hv ht hiv hit hrvid.symm
    rw [hrvid] at h
    refine ⟨_, h, ?_⟩
    simp only [applyText, mkVectorEntry]
    ring
  · refine ⟨0, fun w => ⟨_, lookupKey_combine_text vw w hv ht hit hmem, ?_⟩⟩
    simp [mkTextEntry]

theorem id_ne_of_nodup_getElem? {l : List SearchResult} {i j : ℕ}
    {a b : SearchResult}
    (hnd : (l.map SearchResult._id).Nodup) (hij : i < j)
    (ha : l[i]? = some a) (hb : l[j]? = some b) : a._id ≠ b._id := by
  have hp : [a._id, b._id] <+ l.map SearchResult._id := by
    simpa using (pair_sublist_of_getElem? hij ha hb).map SearchResult._id
  have hnd2 := List.Nodup.sublist hp hnd
  simp only [List.nodup_cons, List.mem_singleton, List.not_mem_nil,
    not_false_iff, and_true] at hnd2
  exact hnd2.1

/-- A strictly larger fused score forces a strictly earlier output
position, whatever the insertion order of the two entries was. -/
theorem pos_lt_of_score_gt {v t : List SearchResult} {vw tw : ℚ}
    {x y : String} {ex ey : FusedDoc}
    (hv : (v.map SearchResult._id).Nodup)
    (ht : (t.map SearchResult._id).Nodup)
    (hex : lookupKey (combineResults v t vw tw) x = some ex)
    (hey : lookupKey (combineResults v t vw tw) y = some ey)
    (hxy : x ≠ y)
    (hs : ey.hybrid_score < ex.hybrid_score) :
    posOf (keys (fuse_search_results v t vw tw)) x <
    posOf (keys (fuse_search_results v t vw tw)) y := by
  have hmx := mem_fuse_of_lookupKey hex
  have hmy := mem_fuse_of_lookupKey hey
  have hne : ex ≠ ey := by
    intro hc
    apply hxy
    rw [← (lookupKey_mem hex).2, ← (lookupKey_mem hey).2, hc]
  rcases pair_sublist_total hmx hmy hne with hp | hp
  · have h2 := posOf_lt_of_pair_sublist (pair_sublist_keys hp)
      (keys_fuse_nodup v t vw tw hv ht)
    rwa [(lookupKey_mem hex).2, (lookupKey_mem hey).2] at h2
  · exfalso
    have hpw := (fuse_pairwise v t vw tw).sublist hp
    have hle := (List.pairwise_cons.mp hpw).1 ex (List.mem_cons_self ex [])
    exact absurd hle (not_le.mpr hs)

/-! ### Zero-weight invariant -/

theorem processVector_score_zero {v : List SearchResult} {m : List FusedDoc}
    (k : ℕ) (hm : ∀ x ∈ m, x.hybrid_score = 0) :
    ∀ e ∈ processVector 0 k v m, e.hybrid_score = 0 := by
  induction v generalizing k m with
  | nil => exact hm
  | cons r rs ih =>
      intro e he
      rw [processVector] at he
      refine ih (k + 1) ?_ e he
      intro x hx
      rcases mem_upsert hx with hx' | rfl
      · exact hm x hx'
      · simp [mkVectorEntry]

theorem processText_score_zero {t : List SearchResult} {m : List FusedDoc}
    (k : ℕ) (hm : ∀ x ∈ m, x.hybrid_score = 0) :
    ∀ e ∈ processText 0 k t m, e.hybrid_score = 0 := by
  induction t generalizing k m with
  | nil => exact hm
  | cons r rs ih =>
      intro e he
      rw [processText] at he
      by_cases hc : containsKey m r._id = true
      · rw [if_pos hc] at he
        refine ih (k + 1) ?_ e he
        intro x hx
        rcases List.mem_map.mp hx with ⟨y, hy, rfl⟩
        by_cases hy2 : y._id = r._id
        · simp [if_pos hy2, applyText, hm y hy]
        · simp [if_neg hy2, hm y hy]
      · rw [if_neg hc] at he
        refine ih (k + 1) ?_ e he
        intro x hx
        rcases List.mem_append.mp hx with hx' | hx'
        · exact hm x hx'
        · rw [List.mem_singleton.mp hx']
          simp [mkTextEntry]

/-! ### Payload provenance -/

theorem processVector_payload {v : List SearchResult} {m : List FusedDoc}
    (vw : ℚ) (k : ℕ) :
    ∀ e ∈ processVector vw k v m,
      (∃ x ∈ m, e._id = x._id ∧ e.title = x.title ∧
        e.content = x.content ∧ e.category = x.category) ∨
      (∃ r ∈ v, e._id = r._id ∧ e.title = r.title ∧
        e.content = r.content ∧ e.category = r.category) := by
  induction v generalizing k m with
  | nil =>
      intro e he
      exact Or.inl ⟨e, he, rfl, rfl, rfl, rfl⟩
  | cons r rs ih =>
      intro e he
      rw [processVector] at he
      rcases ih (k + 1) e he with ⟨x, hx, hp⟩ | ⟨r', hr', hp⟩
      · rcases mem_upsert hx with hx' | rfl
        · exact Or.inl ⟨x, hx', hp⟩
        · refine Or.inr ⟨r, List.mem_cons_self _ _, ?_⟩
          simpa [mkVectorEntry] using hp
      · exact Or.inr ⟨r', List.mem_cons_of_mem _ hr', hp⟩

theorem processText_payload {t : List SearchResult} {m : List FusedDoc}
    (tw : ℚ) (k : ℕ) :
    ∀ e ∈ processText tw k t m,
      (∃ x ∈ m, e._id = x._id ∧ e.title = x.title ∧
        e.content = x.content ∧ e.category = x.category) ∨
      (∃ r ∈ t, e._id = r._id ∧ e.title = r.title ∧
        e.content = r.content ∧ e.category = r.category) := by
  induction t generalizing k m with
  | nil =>
      intro e he
      exact Or.inl ⟨e, he, rfl, rfl, rfl, rfl⟩
  | cons r rs ih =>
      intro e he
      rw [processText] at he
      by_cases hc : containsKey m r._id = true
      · rw [if_pos hc] at he
        rcases ih (k + 1) e he with ⟨x, hx, hp⟩ | ⟨r', hr', hp⟩
        · rcases List.mem_map.mp hx with ⟨y, hy, rfl⟩
          by_cases hy2 : y._id = r._id
          · rw [if_pos hy2] at hp
            exact Or.inl ⟨y, hy, by simpa [applyText] using hp⟩
          · rw [if_neg hy2] at hp
            exact Or.inl ⟨y, hy, hp⟩
        · exact Or.inr ⟨r', List.mem_cons_of_mem _ hr', hp⟩
      · rw [if_neg hc] at he
        rcases ih (k + 1) e he with ⟨x, hx, hp⟩ | ⟨r', hr', hp⟩
        · rcases List.mem_append.mp hx with hx' | hx'
          · exact Or.inl ⟨x, hx', hp⟩
          · rw [List.mem_singleton.mp hx'] at hp
            exact Or.inr ⟨r, List.mem_cons_self _ _,
              by simpa [mkTextEntry] using hp⟩
        · exact Or.inr ⟨r', List.mem_cons_of_mem _ hr', hp⟩

/-! ### Claim theorems -/

/-- C1: for duplicate-free input lists and any weights, the fused score of
a candidate is the sum, over the pipelines that contain it, of
`weight * 1 / (rank + 60)` with 1-based ranks and smoothing constant 60
(both-pipelines, vector-only and text-only cases; `i`, `j` are the 0-based
indices, so the 1-based ranks are `i+1`, `j+1`). -/
theorem C1_fused_score_is_weighted_rrf_sum
    (v t : List SearchResult) (vw tw : ℚ)
    (hv : (v.map SearchResult._id).Nodup)
    (ht : (t.map SearchResult._id).Nodup) :
    (∀ (i j : ℕ) (rv rt : SearchResult), v[i]? = some rv → t[j]? = some rt →
      rt._id = rv._id →
      ∃ e ∈ fuse_search_results v t vw tw, e._id = rv._id ∧
        e.hybrid_score =
          vw * (1 / ((i : ℚ) + 1 + 60)) + tw * (1 / ((j : ℚ) + 1 + 60))) ∧
    (∀ (i : ℕ) (rv : SearchResult), v[i]? = some rv →
      rv._id ∉ t.map SearchResult._id →
      ∃ e ∈ fuse_search_results v t vw tw, e._id = rv._id ∧
        e.hybrid_score = vw * (1 / ((i : ℚ) + 1 + 60))) ∧
    (∀ (j : ℕ) (rt : SearchResult), t[j]? = some rt →
      rt._id ∉ v.map SearchResult._id →
      ∃ e ∈ fuse_search_results v t vw tw, e._id = rt._id ∧
        e.hybrid_score = tw * (1 / ((j : ℚ) + 1 + 60))) := by
  refine ⟨?_, ?_, ?_⟩
  · intro i j rv rt hiv hjt hid
    have h := lookupKey_combine_both vw tw hv ht hiv hjt hid
    exact ⟨_, mem_fuse_of_lookupKey h, (lookupKey_mem h).2,
      by simp [applyText, mkVectorEntry, rrf]⟩
  · intro i rv hiv hnt
    have h := lookupKey_combine_vec vw tw hv hiv hnt
    exact ⟨_, mem_fuse_of_lookupKey h, (lookupKey_mem h).2,
      by simp [mkVectorEntry, rrf]⟩
  · intro j rt hjt hnv
    have h := lookupKey_combine_text vw tw hv ht hjt hnv
    exact ⟨_, mem_fuse_of_lookupKey h, (lookupKey_mem h).2,
      by simp [mkTextEntry, rrf]⟩

/-- C1 witness: in the spec's scenario (vector = [A, B] with weight 0.7,
text = [B, C] with weight 0.3) the candidate B, at vector rank 2 and text
rank 1, gets fused score 0.7/62 + 0.3/61. -/
theorem C1_fused_score_witness :
    ∃ e ∈ fuse_search_results [docA, docB] [docBt, docC] (7/10) (3/10),
      e._id = docB._id ∧
      e.hybrid_score =
        (7/10) * (1 / (((1 : ℕ) : ℚ) + 1 + 60)) +
        (3/10) * (1 / (((0 : ℕ) : ℚ) + 1 + 60)) :=
  (C1_fused_score_is_weighted_rrf_sum [docA, docB] [docBt, docC] (7/10) (3/10)
    (by simp [docA, docB]) (by simp [docBt, docC])).1 1 0 docB docBt rfl rfl rfl

/-- C2: with duplicate-free input lists, the output ids are exactly the
union of the input ids, each appearing exactly once (no loss, no
invention, no duplication, no truncation). -/
theorem C2_output_ids_are_union
    (v t : List SearchResult) (vw tw : ℚ)
    (hv : (v.map SearchResult._id).Nodup)
    (ht : (t.map SearchResult._id).Nodup) :
    ((fuse_search_results v t vw tw).map FusedDoc._id).Nodup ∧
    ∀ id, id ∈ (fuse_search_results v t vw tw).map FusedDoc._id ↔
      (id ∈ v.map SearchResult._id ∨ id ∈ t.map SearchResult._id) := by
  constructor
  · exact keys_fuse_nodup v t vw tw hv ht
  · intro id
    have hp := keys_fuse_perm v t vw tw hv ht
    rw [show (fuse_search_results v t vw tw).map FusedDoc._id =
      keys (fuse_search_results v t vw tw) from rfl, hp.mem_iff]
    exact mem_fusionKeys

/-- C2 witness: on vector = [A, B] (with B also in text) and
text = [B, C], the output ids are duplicate-free and "B" appears. -/
theorem C2_output_ids_witness :
    ((fuse_search_results [docA, docB] [docBt, docC] (7/10) (3/10)).map
      FusedDoc._id).Nodup ∧
    ("B" ∈ (fuse_search_results [docA, docB] [docBt, docC] (7/10) (3/10)).map
        FusedDoc._id ↔
      ("B" ∈ [docA, docB].map SearchResult._id ∨
       "B" ∈ [docBt, docC].map SearchResult._id)) :=
  ⟨(C2_output_ids_are_union [docA, docB] [docBt, docC] (7/10) (3/10)
      (by simp [docA, docB]) (by simp [docBt, docC])).1,
   (C2_output_ids_are_union [docA, docB] [docBt, docC] (7/10) (3/10)
      (by simp [docA, docB]) (by simp [docBt, docC])).2 "B"⟩

/-- C9: fusion is a pure deterministic function of its inputs — running it
twice on identical inputs yields identical output sequences, including the
relative order of tied entries. -/
theorem C9_fusion_deterministic
    (v t v' t' : List SearchResult) (vw tw vw' tw' : ℚ)
    (hv : v = v') (ht : t = t') (hvw : vw = vw') (htw : tw = tw') :
    fuse_search_results v t vw tw = fuse_search_results v' t' vw' tw' := by
  subst hv; subst ht; subst hvw; subst htw; rfl

/-- C9 witness at a concrete input. -/
theorem C9_fusion_deterministic_witness :
    fuse_search_results [docA, docB] [docBt, docC] (7/10) (3/10) =
    fuse_search_results [docA, docB] [docBt, docC] (7/10) (3/10) :=
  C9_fusion_deterministic [docA, docB] [docBt, docC] [docA, docB] [docBt, docC]
    (7/10) (3/10) (7/10) (3/10) rfl rfl rfl rfl

/-- C10: when both pipelines contain a candidate, the output carries the
payload (title, content, category) of the vector pipeline's record — the
first pipeline in policy-iteration order; a text-only candidate carries
the text record's payload; and every output payload is the unmodified
payload of some input record with the same id (fusion never mutates
payloads). -/
theorem C10_payload_from_first_pipeline
    (v t : List SearchResult) (vw tw : ℚ)
    (hv : (v.map SearchResult._id).Nodup)
    (ht : (t.map SearchResult._id).Nodup) :
    (∀ (i j : ℕ) (rv rt : SearchResult), v[i]? = some rv → t[j]? = some rt →
      rt._id = rv._id →
      ∃ e ∈ fuse_search_results v t vw tw, e._id = rv._id ∧
        e.title = rv.title ∧ e.content = rv.content ∧ e.category = rv.category) ∧
    (∀ (j : ℕ) (rt : SearchResult), t[j]? = some rt →
      rt._id ∉ v.map SearchResult._id →
      ∃ e ∈ fuse_search_results v t vw tw, e._id = rt._id ∧
        e.title = rt.title ∧ e.content = rt.content ∧ e.category = rt.category) ∧
    (∀ e ∈ fuse_search_results v t vw tw, ∃ r, (r ∈ v ∨ r ∈ t) ∧
      e._id = r._id ∧ e.title = r.title ∧ e.content = r.content ∧
      e.category = r.category) := by
  refine ⟨?_, ?_, ?_⟩
  · intro i j rv rt hiv hjt hid
    have h := lookupKey_combine_both vw tw hv ht hiv hjt hid
    exact ⟨_, mem_fuse_of_lookupKey h, (lookupKey_mem h).2,
      by simp [applyText, mkVectorEntry]⟩
  · intro j rt hjt hnv
    have h := lookupKey_combine_text vw tw hv ht hjt hnv
    exact ⟨_, mem_fuse_of_lookupKey h, (lookupKey_mem h).2,
      by simp [mkTextEntry]⟩
  · intro e he
    have he' : e ∈ combineResults v t vw tw := (fuse_perm v t vw tw).mem_iff.mp he
    rcases processText_payload tw 0 e he' with ⟨x, hx, hp⟩ | ⟨r, hr, hp⟩
    · rcases processVector_payload vw 0 x hx with ⟨y, hy, _⟩ | ⟨r, hr, hp2⟩
      · simp at hy
      · exact ⟨r, Or.inl hr, hp.1.trans hp2.1, hp.2.1.trans hp2.2.1,
          hp.2.2.1.trans hp2.2.2.1, hp.2.2.2.trans hp2.2.2.2⟩
    · exact ⟨r, Or.inr hr, hp⟩

/-- C10 witness: B is in both pipelines (vector rank 2, text rank 1) with
disagreeing payloads; the output carries the vector record's payload. -/
theorem C10_payload_witness :
    ∃ e ∈ fuse_search_results [docA, docB] [docBt, docC] (7/10) (3/10),
      e._id = docB._id ∧ e.title = docB.title ∧ e.content = docB.content ∧
      e.category = docB.category :=
  (C10_payload_from_first_pipeline [docA, docB] [docBt, docC] (7/10) (3/10)
    (by simp [docA, docB]) (by simp [docBt, docC])).1 1 0 docB docBt rfl rfl rfl

/-- C6 amended: every output record carries fixed per-pipeline fields for
both pipelines; a pipeline that did not retrieve the candidate is recorded
with score `0` and rank `none` (zero-filled score, `None` rank), so only
the rank — not the score — distinguishes "did not retrieve" from
"retrieved with zero score". -/
theorem C6_amended_absent_pipeline_zero_filled
    (v t : List SearchResult) (vw tw : ℚ)
    (hv : (v.map SearchResult._id).Nodup)
    (ht : (t.map SearchResult._id).Nodup) :
    (∀ (i : ℕ) (rv : SearchResult), v[i]? = some rv →
      rv._id ∉ t.map SearchResult._id →
      ∃ e ∈ fuse_search_results v t vw tw, e._id = rv._id ∧
        e.text_score = 0 ∧ e.text_rank = none ∧ e.vector_rank = some (i + 1)) ∧
    (∀ (j : ℕ) (rt : SearchResult), t[j]? = some rt →
      rt._id ∉ v.map SearchResult._id →
      ∃ e ∈ fuse_search_results v t vw tw, e._id = rt._id ∧
        e.vector_score = 0 ∧ e.vector_rank = none ∧ e.text_rank = some (j + 1)) ∧
    (∀ (i j : ℕ) (rv rt : SearchResult), v[i]? = some rv → t[j]? = some rt →
      rt._id = rv._id →
      ∃ e ∈ fuse_search_results v t vw tw, e._id = rv._id ∧
        e.vector_rank = some (i + 1) ∧ e.text_rank = some (j + 1)) := by
  refine ⟨?_, ?_, ?_⟩
  · intro i rv hiv hnt
    have h := lookupKey_combine_vec vw tw hv hiv hnt
    exact ⟨_, mem_fuse_of_lookupKey h, (lookupKey_mem h).2,
      by simp [mkVectorEntry], by simp [mkVectorEntry], by simp [mkVectorEntry]⟩
  · intro j rt hjt hnv
    have h := lookupKey_combine_text vw tw hv ht hjt hnv
    exact ⟨_, mem_fuse_of_lookupKey h, (lookupKey_mem h).2,
      by simp [mkTextEntry], by simp [mkTextEntry], by simp [mkTextEntry]⟩
  · intro i j rv rt hiv hjt hid
    have h := lookupKey_combine_both vw tw hv ht hiv hjt hid
    exact ⟨_, mem_fuse_of_lookupKey h, (lookupKey_mem h).2,
      by simp [applyText, mkVectorEntry], by simp [applyText, mkVectorEntry]⟩

/-- C6 counterexample: the per-pipeline fields are not absent for a
pipeline that did not retrieve the candidate — they are present and the
score is zero-filled.  A, retrieved only by vector, gets
`text_score = 0, text_rank = none`; the same `text_score = 0` also arises
when text retrieves A with an explicit zero score (only the rank
differs), refuting the claimed absent-from-map representation. -/
theorem C6_counterexample :
    ((fuse_search_results [docA] [] (7/10) (3/10)).map
        (fun e => (e.text_score, e.text_rank)) = [((0 : ℚ), (none : Option ℕ))]) ∧
    ((fuse_search_results [docA] [docAzero] (7/10) (3/10)).map
        (fun e => (e.text_score, e.text_rank)) = [((0 : ℚ), some 1)]) := by
  constructor <;>
    norm_num [fuse_search_results, combineResults, processVector, processText,
      sortDesc, insertDesc, upsert, containsKey, updateKey, mkVectorEntry,
      mkTextEntry, applyText, rrf, docA, docAzero]

/-- C6 witness for the amended theorem at a concrete input: A is retrieved
only by the vector pipeline. -/
theorem C6_amended_witness :
    ∃ e ∈ fuse_search_results [docA] [docC] (7/10) (3/10),
      e._id = docA._id ∧ e.text_score = 0 ∧ e.text_rank = none ∧
      e.vector_rank = some (0 + 1) :=
  (C6_amended_absent_pipeline_zero_filled [docA] [docC] (7/10) (3/10)
    (by simp [docA]) (by simp [docC])).1 0 docA rfl (by simp [docA, docC])

/-- C4 amended: duplicate ids within a single pipeline's list are silently
accepted, never rejected: a duplicate inside the vector list makes the
later occurrence replace the earlier one entirely (the earlier
occurrence's score contribution and payload are discarded); a duplicate
inside the text list accumulates both rank contributions onto the entry
created by the first occurrence (keeping its payload, with the later
occurrence's text rank). -/
theorem C4_amended_duplicates_silently_merged :
    (∀ (r1 r2 : SearchResult) (vw tw : ℚ), r1._id = r2._id →
      ∃ e, fuse_search_results [r1, r2] [] vw tw = [e] ∧
        e._id = r2._id ∧ e.title = r2.title ∧ e.vector_rank = some 2 ∧
        e.hybrid_score = vw * rrf 1) ∧
    (∀ (r1 r2 : SearchResult) (vw tw : ℚ), r1._id = r2._id →
      ∃ e, fuse_search_results [] [r1, r2] vw tw = [e] ∧
        e._id = r1._id ∧ e.title = r1.title ∧ e.text_rank = some 2 ∧
        e.hybrid_score = tw * rrf 0 + tw * rrf 1) := by
  constructor
  · intro r1 r2 vw tw h
    refine ⟨mkVectorEntry vw 1 r2, ?_, rfl, rfl, rfl, rfl⟩
    simp [fuse_search_results, combineResults, processVector, processText,
      sortDesc, insertDesc, upsert, h]
  · intro r1 r2 vw tw h
    refine ⟨applyText tw 1 r2 (mkTextEntry tw 0 r1), ?_, rfl, rfl, rfl, rfl⟩
    simp [fuse_search_results, combineResults, processVector, processText,
      sortDesc, insertDesc, containsKey, updateKey, h]

/-- C4 counterexample: a duplicated id inside the vector list does not
fail with any error; the output silently keeps a single entry carrying the
later occurrence's payload and only the later occurrence's contribution
(0.7/62), discarding the earlier occurrence's contribution 0.7/61. -/
theorem C4_counterexample :
    (fuse_search_results [docA, docA2] [] (7/10) (3/10)).map
      (fun e => (e._id, e.title, e.hybrid_score)) = [("A", "titleA2", 7/620)] := by
  norm_num [fuse_search_results, combineResults, processVector, processText,
    sortDesc, insertDesc, upsert, containsKey, updateKey, mkVectorEntry,
    mkTextEntry, applyText, rrf, docA, docA2]

/-- C4 witness for the amended theorem: both duplicate cases at a concrete
duplicate pair. -/
theorem C4_amended_witness :
    (∃ e, fuse_search_results [docA, docA2] [] (7/10) (3/10) = [e] ∧
      e._id = docA2._id ∧ e.title = docA2.title ∧ e.vector_rank = some 2 ∧
      e.hybrid_score = (7/10) * rrf 1) ∧
    (∃ e, fuse_search_results [] [docA, docA2] (7/10) (3/10) = [e] ∧
      e._id = docA._id ∧ e.title = docA.title ∧ e.text_rank = some 2 ∧
      e.hybrid_score = (3/10) * rrf 0 + (3/10) * rrf 1) :=
  ⟨C4_amended_duplicates_silently_merged.1 docA docA2 (7/10) (3/10) rfl,
   C4_amended_duplicates_silently_merged.2 docA docA2 (7/10) (3/10) rfl⟩

/-- C5 amended: an empty pipeline set and all-zero weights are silently
accepted, never rejected: fusing two empty lists returns the empty list,
and fusing with both weights zero returns entries whose fused scores are
all zero. -/
theorem C5_amended_empty_and_zero_weights_accepted :
    (∀ vw tw : ℚ, fuse_search_results [] [] vw tw = []) ∧
    (∀ (v t : List SearchResult), ∀ e ∈ fuse_search_results v t 0 0,
      e.hybrid_score = 0) := by
  constructor
  · intro vw tw
    rfl
  · intro v t e he
    have he' : e ∈ combineResults v t 0 0 := (fuse_perm v t 0 0).mem_iff.mp he
    exact processText_score_zero 0 (processVector_score_zero 0 (by simp)) e he'

/-- C5 counterexample: an empty pipeline set returns the empty list, and
all-zero weights return zero-scored entries — no error in either case. -/
theorem C5_counterexample :
    fuse_search_results [] [] (7/10) (3/10) = [] ∧
    (fuse_search_results [docA] [docC] 0 0).map
      (fun e => (e._id, e.hybrid_score)) = [("A", 0), ("C", 0)] := by
  constructor
  · rfl
  · norm_num [fuse_search_results, combineResults, processVector, processText,
      sortDesc, insertDesc, upsert, containsKey, updateKey, mkVectorEntry,
      mkTextEntry, applyText, rrf, docA, docC]

/-- C5 witness for the amended theorem at concrete inputs. -/
theorem C5_amended_witness :
    fuse_search_results [] [] (7/10) (3/10) = [] ∧
    (mkVectorEntry 0 0 docA).hybrid_score = 0 :=
  ⟨C5_amended_empty_and_zero_weights_accepted.1 (7/10) (3/10),
   C5_amended_empty_and_zero_weights_accepted.2 [docA] [] (mkVectorEntry 0 0 docA)
     (by norm_num [fuse_search_results, combineResults, processVector,
       processText, sortDesc, insertDesc, upsert, containsKey, updateKey,
       mkVectorEntry, rrf, docA])⟩

/-- C7 amended: the source's default weights are `vector_weight = 0.7` and
`text_weight = 0.3` (not 1.0); fusing with unspecified weights equals
fusing with 0.7 and 0.3 explicitly, and a vector-only candidate at 0-based
index `i` gets default fused score `0.7 * 1/(i+61)`. -/
theorem C7_amended_default_weights_are_07_03 :
    (∀ v t : List SearchResult,
      fuse_search_results_default v t = fuse_search_results v t (7/10) (3/10)) ∧
    (∀ (v t : List SearchResult) (i : ℕ) (rv : SearchResult),
      (v.map SearchResult._id).Nodup → (t.map SearchResult._id).Nodup →
      v[i]? = some rv → rv._id ∉ t.map SearchResult._id →
      ∃ e ∈ fuse_search_results_default v t, e._id = rv._id ∧
        e.hybrid_score = (7/10) * (1 / ((i : ℚ) + 1 + 60))) := by
  constructor
  · intro v t
    rfl
  · intro v t i rv hv ht hiv hnt
    have h := lookupKey_combine_vec DEFAULT_VECTOR_WEIGHT DEFAULT_TEXT_WEIGHT
      hv hiv hnt
    exact ⟨_, mem_fuse_of_lookupKey h, (lookupKey_mem h).2,
      by simp [mkVectorEntry, rrf, DEFAULT_VECTOR_WEIGHT]⟩

/-- C7 counterexample: fusing with unspecified weights does not match
fusing with both weights 1.0 — the default score of a lone vector
candidate is 0.7/61, not 1/61. -/
theorem C7_counterexample :
    (fuse_search_results_default [docA] []).map (fun e => e.hybrid_score) =
      [7/610] ∧
    (fuse_search_results [docA] [] 1 1).map (fun e => e.hybrid_score) =
      [1/61] ∧
    fuse_search_results_default [docA] [] ≠ fuse_search_results [docA] [] 1 1 := by
  have h1 : (fuse_search_results_default [docA] []).map (fun e => e.hybrid_score) =
      [7/610] := by
    norm_num [fuse_search_results_default, fuse_search_results, combineResults,
      processVector, processText, sortDesc, insertDesc, upsert, containsKey,
      updateKey, mkVectorEntry, mkTextEntry, applyText, rrf, docA,
      DEFAULT_VECTOR_WEIGHT, DEFAULT_TEXT_WEIGHT]
  have h2 : (fuse_search_results [docA] [] 1 1).map (fun e => e.hybrid_score) =
      [1/61] := by
    norm_num [fuse_search_results, combineResults, processVector, processText,
      sortDesc, insertDesc, upsert, containsKey, updateKey, mkVectorEntry,
      mkTextEntry, applyText, rrf, docA]
  refine ⟨h1, h2, fun hc => ?_⟩
  rw [hc, h2] at h1
  norm_num at h1

/-- C7 witness for the amended theorem at a concrete input. -/
theorem C7_amended_witness :
    fuse_search_results_default [docA] [docC] =
      fuse_search_results [docA] [docC] (7/10) (3/10) ∧
    (∃ e ∈ fuse_search_results_default [docA] [docC], e._id = docA._id ∧
      e.hybrid_score = (7/10) * (1 / (((0 : ℕ) : ℚ) + 1 + 60))) :=
  ⟨C7_amended_default_weights_are_07_03.1 [docA] [docC],
   C7_amended_default_weights_are_07_03.2 [docA] [docC] 0 docA
     (by simp [docA]) (by simp [docC]) rfl (by simp [docA, docC])⟩

/-- C3 amended: for duplicate-free input ids, the output is sorted by
fused score descending, and entries with equal fused scores appear in
first-encounter (insertion) order — vector candidates in vector order
first, then text-only candidates in text order.  This order is
deterministic but is not ascending lexical id order. -/
theorem C3_amended_sorted_desc_ties_by_insertion
    (v t : List SearchResult) (vw tw : ℚ)
    (hv : (v.map SearchResult._id).Nodup)
    (ht : (t.map SearchResult._id).Nodup) :
    (fuse_search_results v t vw tw).Pairwise
      (fun a b => b.hybrid_score ≤ a.hybrid_score) ∧
    (∀ a b : FusedDoc, [a, b] <+ fuse_search_results v t vw tw →
      a.hybrid_score = b.hybrid_score →
      posOf (fusionKeys v t) a._id < posOf (fusionKeys v t) b._id) := by
  refine ⟨fuse_pairwise v t vw tw, ?_⟩
  intro a b hab hsc
  have hnd : (keys (fuse_search_results v t vw tw)).Nodup :=
    keys_fuse_nodup v t vw tw hv ht
  have hout_nd : (fuse_search_results v t vw tw).Nodup :=
    List.Nodup.of_map FusedDoc._id hnd
  have hne : a ≠ b := by
    intro hc
    subst hc
    have hd := List.Nodup.sublist hab hout_nd
    simp at hd
  have ha : a ∈ combineResults v t vw tw :=
    (fuse_perm v t vw tw).mem_iff.mp (hab.subset (List.mem_cons_self a [b]))
  have hb : b ∈ combineResults v t vw tw :=
    (fuse_perm v t vw tw).mem_iff.mp
      (hab.subset (List.mem_cons_of_mem a (List.mem_cons_self b [])))
  rcases pair_sublist_total ha hb hne with hcomb | hcomb
  · have h2 : [a._id, b._id] <+ fusionKeys v t := by
      have h3 := pair_sublist_keys hcomb
      rwa [keys_combineResults v t vw tw hv ht] at h3
    exact posOf_lt_of_pair_sublist h2 (fusionKeys_nodup hv ht)
  · exfalso
    have hst : [b, a] <+ fuse_search_results v t vw tw :=
      sortDesc_stable hcomb hsc.le
    have p1 := posOf_lt_of_pair_sublist (pair_sublist_keys hab) hnd
    have p2 := posOf_lt_of_pair_sublist (pair_sublist_keys hst) hnd
    omega

/-- C3 counterexample: with equal weights 0.5/0.5, "B" (vector rank 1) and
"A" (text rank 1) tie at fused score 1/122, yet the output lists "B"
before "A" (insertion order) although "A" < "B" lexically — ties are not
broken by ascending lexical id order. -/
theorem C3_counterexample :
    (fuse_search_results [docB] [docAt] (1/2) (1/2)).map
        (fun e => (e._id, e.hybrid_score)) =
      [("B", 1/122), ("A", 1/122)] ∧
    "A" < "B" := by
  constructor
  · norm_num [fuse_search_results, combineResults, processVector, processText,
      sortDesc, insertDesc, upsert, containsKey, updateKey, mkVectorEntry,
      mkTextEntry, applyText, rrf, docB, docAt]
  · exact String.lt_iff_toList_lt.mpr (by decide)

/-- C3 witness for the amended theorem at a concrete input. -/
theorem C3_amended_witness :
    (fuse_search_results [docB] [docAt] (1/2) (1/2)).Pairwise
      (fun a b => b.hybrid_score ≤ a.hybrid_score) :=
  (C3_amended_sorted_desc_ties_by_insertion [docB] [docAt] (1/2) (1/2)
    (by simp [docB]) (by simp [docAt])).1

/-- Monotonicity in the vector weight: if `a` has a strictly better vector
rank than `b` (both vector-retrieved) and `a` precedes `b` in the fused
output at vector weight `w1`, then `a` still precedes `b` at any vector
weight `w2 ≥ w1` (text weight and both lists fixed). -/
theorem fuse_vector_weight_monotone
    (v t : List SearchResult) (tw w1 w2 : ℚ) (i j : ℕ) (a b : SearchResult)
    (hv : (v.map SearchResult._id).Nodup)
    (ht : (t.map SearchResult._id).Nodup)
    (hij : i < j) (ha : v[i]? = some a) (hb : v[j]? = some b)
    (hw : w1 ≤ w2)
    (h1 : posOf (keys (fuse_search_results v t w1 tw)) a._id <
          posOf (keys (fuse_search_results v t w1 tw)) b._id) :
    posOf (keys (fuse_search_results v t w2 tw)) a._id <
    posOf (keys (fuse_search_results v t w2 tw)) b._id := by
  obtain ⟨ca, hca⟩ := combine_score_shape tw hv ht ha
  obtain ⟨cb, hcb⟩ := combine_score_shape tw hv ht hb
  obtain ⟨ea1, hea1, hsa1⟩ := hca w1
  obtain ⟨eb1, heb1, hsb1⟩ := hcb w1
  obtain ⟨ea2, hea2, hsa2⟩ := hca w2
  obtain ⟨eb2, heb2, hsb2⟩ := hcb w2
  have hscore1 : eb1.hybrid_score ≤ ea1.hybrid_score :=
    score_ge_of_pos_lt hv ht hea1 heb1 h1
  have hscore2 : eb2.hybrid_score ≤ ea2.hybrid_score := by
    rw [hsa2, hsb2]
    rw [hsa1, hsb1] at hscore1
    exact mono_step (rrf_le_rrf (le_of_lt hij)) hw hscore1
  have hpair_keys : [a._id, b._id] <+ keys (combineResults v t w2 tw) := by
    rw [keys_combineResults v t w2 tw hv ht, fusionKeys]
    refine List.Sublist.trans ?_ (List.sublist_append_left _ _)
    simpa using (pair_sublist_of_getElem? hij ha hb).map SearchResult._id
  obtain ⟨a', b', hab', ha', hb'⟩ := pair_sublist_entries hpair_keys
  have hnd2 : (keys (combineResults v t w2 tw)).Nodup := by
    rw [keys_combineResults v t w2 tw hv ht]
    exact fusionKeys_nodup hv ht
  have hea2' : a' = ea2 := by
    have h := lookupKey_of_mem hnd2 (hab'.subset (List.mem_cons_self a' [b']))
    rw [ha', hea2] at h
    exact (Option.some.injEq _ _).mp h.symm
  have heb2' : b' = eb2 := by
    have h := lookupKey_of_mem hnd2
      (hab'.subset (List.mem_cons_of_mem a' (List.mem_cons_self b' [])))
    rw [hb', heb2] at h
    exact (Option.some.injEq _ _).mp h.symm
  have hsub2 : [ea2, eb2] <+ fuse_search_results v t w2 tw := by
    refine sortDesc_stable ?_ hscore2
    rw [← hea2', ← heb2']
    exact hab'
  have hpos := posOf_lt_of_pair_sublist (pair_sublist_keys hsub2)
    (keys_fuse_nodup v t w2 tw hv ht)
  rwa [(lookupKey_mem hea2).2, (lookupKey_mem heb2).2] at hpos

/-- Monotonicity in the text weight: if `a` has a strictly better text
rank than `b` (both text-retrieved) and `a` precedes `b` in the fused
output at text weight `w1`, then `a` still precedes `b` at any text weight
`w2 ≥ w1` (vector weight and both lists fixed).  Unlike the vector case,
the two candidates' insertion order need not follow their text ranks (it
follows the vector list when both also appear there), so the argument
uses strict score dominance for `w1 < w2` and is trivial for `w1 = w2`. -/
theorem fuse_text_weight_monotone
    (v t : List SearchResult) (vw w1 w2 : ℚ) (i j : ℕ) (a b : SearchResult)
    (hv : (v.map SearchResult._id).Nodup)
    (ht : (t.map SearchResult._id).Nodup)
    (hij : i < j) (ha : t[i]? = some a) (hb : t[j]? = some b)
    (hw : w1 ≤ w2)
    (h1 : posOf (keys (fuse_search_results v t vw w1)) a._id <
          posOf (keys (fuse_search_results v t vw w1)) b._id) :
    posOf (keys (fuse_search_results v t vw w2)) a._id <
    posOf (keys (fuse_search_results v t vw w2)) b._id := by
  rcases eq_or_lt_of_le hw with rfl | hw'
  · exact h1
  obtain ⟨ca, hca⟩ := combine_score_shape_text vw hv ht ha
  obtain ⟨cb, hcb⟩ := combine_score_shape_text vw hv ht hb
  obtain ⟨ea1, hea1, hsa1⟩ := hca w1
  obtain ⟨eb1, heb1, hsb1⟩ := hcb w1
  obtain ⟨ea2, hea2, hsa2⟩ := hca w2
  obtain ⟨eb2, heb2, hsb2⟩ := hcb w2
  have hscore1 : eb1.hybrid_score ≤ ea1.hybrid_score :=
    score_ge_of_pos_lt hv ht hea1 heb1 h1
  have hscore2 : eb2.hybrid_score < ea2.hybrid_score := by
    rw [hsa2, hsb2]
    rw [hsa1, hsb1] at hscore1
    exact mono_step_strict (rrf_lt_rrf hij) hw' hscore1
  exact pos_lt_of_score_gt hv ht hea2 heb2
    (id_ne_of_nodup_getElem? ht hij ha hb) hscore2

/-- C8 amended: raising a pipeline's weight — holding both ranked lists
and the other pipeline's weight fixed — never demotes a candidate
retrieved by that pipeline relative to another candidate of that pipeline
with a strictly worse rank in it: if the better-ranked candidate `a`
precedes `b` in the fused output at weight `w1`, it still does at any
weight `w2 ≥ w1`.  Both pipeline instances are covered: the first
conjunct raises the vector weight over vector-retrieved pairs, the second
raises the text weight over text-retrieved pairs.  (The unrestricted
original claim — that no candidate's relative position among a pipeline's
candidates ever decreases — is false; see the counterexample.) -/
theorem C8_amended_weight_monotone_toward_pipeline_order :
    (∀ (v t : List SearchResult) (tw w1 w2 : ℚ) (i j : ℕ)
        (a b : SearchResult),
      (v.map SearchResult._id).Nodup → (t.map SearchResult._id).Nodup →
      i < j → v[i]? = some a → v[j]? = some b → w1 ≤ w2 →
      posOf (keys (fuse_search_results v t w1 tw)) a._id <
        posOf (keys (fuse_search_results v t w1 tw)) b._id →
      posOf (keys (fuse_search_results v t w2 tw)) a._id <
        posOf (keys (fuse_search_results v t w2 tw)) b._id) ∧
    (∀ (v t : List SearchResult) (vw w1 w2 : ℚ) (i j : ℕ)
        (a b : SearchResult),
      (v.map SearchResult._id).Nodup → (t.map SearchResult._id).Nodup →
      i < j → t[i]? = some a → t[j]? = some b → w1 ≤ w2 →
      posOf (keys (fuse_search_results v t vw w1)) a._id <
        posOf (keys (fuse_search_results v t vw w1)) b._id →
      posOf (keys (fuse_search_results v t vw w2)) a._id <
        posOf (keys (fuse_search_results v t vw w2)) b._id) :=
  ⟨fun v t tw w1 w2 i j a b hv ht hij ha hb hw h1 =>
      fuse_vector_weight_monotone v t tw w1 w2 i j a b hv ht hij ha hb hw h1,
   fun v t vw w1 w2 i j a b hv ht hij ha hb hw h1 =>
      fuse_text_weight_monotone v t vw w1 w2 i j a b hv ht hij ha hb hw h1⟩

/-- C8 counterexample: raising the vector weight from 0.1 to 20 (text
weight fixed at 0.3) demotes candidate "c2" — retrieved by the vector
pipeline at rank 2 — from the first to the second position among the
vector-retrieved candidates, so a candidate's relative rank position among
the candidates of a pipeline can decrease when the pipeline's weight
increases. -/
theorem C8_counterexample :
    (1/10 : ℚ) ≤ 20 ∧
    (fuse_search_results [docV1, docV2] [docV2t] (1/10) (3/10)).map
      FusedDoc._id = ["c2", "c1"] ∧
    (fuse_search_results [docV1, docV2] [docV2t] 20 (3/10)).map
      FusedDoc._id = ["c1", "c2"] := by
  refine ⟨by norm_num, ?_, ?_⟩ <;>
  · simp only [fuse_search_results, combineResults, processVector, processText,
      sortDesc, insertDesc, upsert, containsKey, updateKey, mkVectorEntry,
      mkTextEntry, applyText, rrf, docV1, docV2, docV2t, String.reduceEq]
    norm_num

/-- C8 witness for the amended theorem at concrete inputs, one per
conjunct: "A" precedes "B" at vector weight 1 and still does at vector
weight 2; "A" precedes "C" at text weight 1 and still does at text
weight 2. -/
theorem C8_amended_witness :
    (posOf (keys (fuse_search_results [docA, docB] [docC] 2 (3/10))) docA._id <
     posOf (keys (fuse_search_results [docA, docB] [docC] 2 (3/10))) docB._id) ∧
    (posOf (keys (fuse_search_results [] [docAt, docC] (7/10) 2)) docAt._id <
     posOf (keys (fuse_search_results [] [docAt, docC] (7/10) 2)) docC._id) :=
  ⟨C8_amended_weight_monotone_toward_pipeline_order.1 [docA, docB] [docC]
    (3/10) 1 2 0 1 docA docB (by simp [docA, docB]) (by simp [docC])
    (by norm_num) rfl rfl (by norm_num)
    (by
      simp only [fuse_search_results, combineResults, processVector,
        processText, sortDesc, insertDesc, upsert, containsKey, updateKey,
        mkVectorEntry, mkTextEntry, applyText, rrf, keys, posOf, docA, docB,
        docC, String.reduceEq]
      norm_num [insertDesc, posOf, keys, String.reduceEq]
      decide),
   C8_amended_weight_monotone_toward_pipeline_order.2 [] [docAt, docC]
    (7/10) 1 2 0 1 docAt docC (by simp) (by simp [docAt, docC])
    (by norm_num) rfl rfl (by norm_num)
    (by
      simp only [fuse_search_results, combineResults, processVector,
        processText, sortDesc, insertDesc, upsert, containsKey, updateKey,
        mkVectorEntry, mkTextEntry, applyText, rrf, keys, posOf, docAt, docC,
        String.reduceEq]
      norm_num [insertDesc, posOf, keys, String.reduceEq]
      decide)⟩

end HybridSearch
